import Mathlib

/-
  Verification development for the Voiden extension SDK.

  The SDK is almost entirely a declared contract: the host application
  implements the registries and the pipeline driver, while this repository
  fixes their shapes and invariants.  Where behaviour is only declared here
  (pipeline execution, helper registry, environment API), the corresponding
  Lean definition is modelled from the specification and marked as such in
  its doc comment.  The two runtime pieces that do live in the repository
  (UIExtension/ElectronExtension metadata and the jsonc wrappers) are
  embedded from the source.
-/

namespace VoidenSDK

/-! ### Environment model (src/ui/environment.ts, src/ui/types.ts) -/

/-- A host environment: an ordered list of (variable name, value) pairs. -/
abbrev EnvVars := List (String × String)

/-- The key set of an environment: the variable names, in order. -/
def envKeys (e : EnvVars) : List String := e.map Prod.fst

namespace EnvironmentAPI

/-- Modelled from the spec: the host-side implementation of the secure
`EnvironmentAPI.getKeys` declared in `src/ui/environment.ts` is not in this
repository; per its declaration it returns only the variable names. -/
def getKeys (e : EnvVars) : List String := envKeys e

/-- Modelled from the spec: `EnvironmentAPI.has(key)` reports whether the
variable exists in the active environment. -/
def has (e : EnvVars) (k : String) : Bool := (envKeys e).contains k

/-- Modelled from the spec: the payload handed to an `onChange` subscriber is
the updated list of variable names (keys only). -/
def onChangePayload (e : EnvVars) : List String := envKeys e

end EnvironmentAPI

namespace LegacyEnvironmentAPI

/-- Modelled from the declaration `LegacyEnvironmentAPI.get` in
`src/ui/types.ts`: it resolves to the full key-to-value record of the
requested scope. -/
def get (e : EnvVars) : List (String × String) := e

/-- Modelled from the declaration of `LegacyEnvironmentAPI.onChange` in
`src/ui/types.ts`: the callback payload is the full key-to-value record. -/
def onChangePayload (e : EnvVars) : List (String × String) := e

end LegacyEnvironmentAPI

/-- An environment-facing operation is name-only (never reveals a value)
when its result depends only on the key set of the environment. -/
def ValueIndependent {α : Type} (f : EnvVars → α) : Prop :=
  ∀ e₁ e₂ : EnvVars, envKeys e₁ = envKeys e₂ → f e₁ = f e₂

/-- The property claimed for the whole environment-facing surface reachable
from an extension context in this layer: the secure API (`getKeys`, `has`,
`onChange`) and the legacy API still present on `UIExtensionContext`. -/
def EnvSurfaceNameOnly : Prop :=
  ValueIndependent EnvironmentAPI.getKeys ∧
  (∀ k, ValueIndependent (fun e => EnvironmentAPI.has e k)) ∧
  ValueIndependent EnvironmentAPI.onChangePayload ∧
  ValueIndependent LegacyEnvironmentAPI.get ∧
  ValueIndependent LegacyEnvironmentAPI.onChangePayload

/-! ### Pipeline model (src/ui/pipeline.ts) -/

/-- The four fixed pipeline stages of `PipelineStage` in `src/ui/pipeline.ts`. -/
inductive PipelineStage where
  | preProcessing
  | requestCompilation
  | preSend
  | postProcessing
deriving DecidableEq, Repr

/-- A registered hook.  The handler itself is opaque to this layer; the one
behaviour observable in the pipeline contract is whether a pre-processing
handler invokes `cancel`, recorded in `cancels`. -/
structure Hook where
  stage : PipelineStage
  priority : Int
  ext : String
  regIndex : Nat
  cancels : Bool
deriving DecidableEq, Repr

/-- Default hook priority, from `registerHook(stage, handler, priority = 100)`. -/
def defaultPriority : Int := 100

/-- A stage registry: the hooks in registration order. -/
abbrev HookRegistry := List Hook

namespace PipelineAPI

/-- Modelled from the spec: `PipelineAPI.registerHook` appends the hook for
the calling extension to the registry; the registration index records the
registration order. -/
def registerHook (reg : HookRegistry) (stage : PipelineStage) (ext : String)
    (priority : Int) (cancels : Bool) : HookRegistry :=
  reg ++ [⟨stage, priority, ext, reg.length, cancels⟩]

/-- Modelled from the spec: `PipelineAPI.unregisterAll` removes every hook
belonging to the calling extension, across all stages. -/
def unregisterAll (reg : HookRegistry) (ext : String) : HookRegistry :=
  reg.filter (fun h => h.ext ≠ ext)

end PipelineAPI

/-- Insert a hook into a list, in front of the first element `x` with
`p h x`.  Shared skeleton of the execution order and its specification. -/
def insertOrd (p : Hook → Hook → Bool) (h : Hook) : List Hook → List Hook
  | [] => [h]
  | x :: xs => if p h x then h :: x :: xs else x :: insertOrd p h xs

/-- Sort a list of hooks by repeated ordered insertion (a stable insertion
sort when `p` is the strict-or-equal comparison used below). -/
def sortOrd (p : Hook → Hook → Bool) (l : List Hook) : List Hook :=
  l.foldr (insertOrd p) []

/-- Priority comparison used by the host when executing a stage: lower
priorities run first. -/
def hookLE (a b : Hook) : Bool := decide (a.priority ≤ b.priority)

/-- The specification order of the claim: priority ascending, ties broken by
registration order. -/
def hookLexLE (a b : Hook) : Bool :=
  decide (a.priority < b.priority ∨ (a.priority = b.priority ∧ a.regIndex ≤ b.regIndex))

/-- Modelled from the spec: the host executes the hooks of one stage in
ascending priority order, ties broken stably by registration order.  The
stable insertion sort over the registration sequence realises this. -/
def stageExecOrder (reg : HookRegistry) (stage : PipelineStage) : List Hook :=
  sortOrd hookLE (reg.filter (fun h => h.stage == stage))

/-- The specification-side description of the same order: an (insertion)
sort of the stage's registration sequence by the lexicographic key
(priority, registration index). -/
def sortLex (l : List Hook) : List Hook := sortOrd hookLexLE l

/-- Modelled from the spec: one pipeline run.  All pre-processing hooks of
the stage run first (cancellation takes effect only at the stage boundary);
if any of them invoked `cancel`, the pipeline stops before request
compilation, otherwise the remaining stages run in order.  The result is the
trace of executed hooks. -/
def runPipeline (reg : HookRegistry) : List Hook :=
  let pre := stageExecOrder reg .preProcessing
  if pre.any Hook.cancels then pre
  else
    pre ++ stageExecOrder reg .requestCompilation ++
      stageExecOrder reg .preSend ++ stageExecOrder reg .postProcessing

/-! ### Helper registry model (src/ui/helpers.ts) -/

/-- An attempted capability object, as an arbitrary record of optional
boolean fields: `none` models a missing field, `some b` a field literally
set to `b`.  The interface `HelperCapability` in `src/ui/helpers.ts` admits
only the record with every field literally `true`. -/
structure CapabilityClaim where
  pure : Option Bool
  noNetwork : Option Bool
  noFileSystem : Option Bool
  noEnvironment : Option Bool
deriving DecidableEq, Repr

/-- Whether a capability object matches the `HelperCapability` type of
`src/ui/helpers.ts`, i.e. every required flag is literally `true`. -/
def capabilityAccepted (c : CapabilityClaim) : Bool :=
  c.pure == some true && c.noNetwork == some true &&
    c.noFileSystem == some true && c.noEnvironment == some true

/-- A helper registry: extension id to named helper collection.  The helper
functions themselves are opaque values of type `α`. -/
abbrev HelperRegistry (α : Type) := List (String × List (String × α))

namespace HelperAPI

/-- Modelled from the spec: registration replaces the calling extension's
full collection, and is accepted only when the capability object matches
the `HelperCapability` shape (all flags literally `true`). -/
def register {α : Type} (reg : HelperRegistry α) (ext : String)
    (helpers : List (String × α)) (cap : CapabilityClaim) :
    Except String (HelperRegistry α) :=
  if capabilityAccepted cap then
    .ok ((ext, helpers) :: reg.filter (fun p => p.1 ≠ ext))
  else
    .error "helper registration rejected: capability flags must all be literally true"

/-- Modelled from the spec: `HelperAPI.get(extensionId, helperName)` returns
the function or a not-found result; it is total and never throws. -/
def get {α : Type} (reg : HelperRegistry α) (ext helperName : String) : Option α :=
  match reg.lookup ext with
  | none => none
  | some coll => coll.lookup helperName

/-- Modelled from the spec: `HelperAPI.has` is a pure existence check. -/
def has {α : Type} (reg : HelperRegistry α) (ext helperName : String) : Bool :=
  (get reg ext helperName).isSome

end HelperAPI

/-! ### Request/response state and hook contexts (src/ui/pipeline.ts) -/

/-- One key/value entry of `headers`, `queryParams` or `pathParams`. -/
structure KVEntry where
  key : String
  value : String
  enabled : Option Bool
deriving DecidableEq, Repr

/-- `RestApiRequestState` from `src/ui/pipeline.ts`. -/
structure RestApiRequestState where
  method : String
  url : String
  headers : List KVEntry
  queryParams : List KVEntry
  pathParams : List KVEntry
  body : Option String
  contentType : Option String
  metadata : List (String × String)
deriving DecidableEq, Repr

/-- Timing block of `RestApiResponseState`. -/
structure ResponseTiming where
  start : Int
  stop : Int
  duration : Int
deriving DecidableEq, Repr

/-- `RestApiResponseState` from `src/ui/pipeline.ts` (dynamic values
modelled as strings). -/
structure RestApiResponseState where
  status : Int
  statusText : String
  headers : List (String × String)
  contentType : Option String
  body : String
  timing : ResponseTiming
  bytesContent : Int
  url : String
  error : Option String
  metadata : List (String × String)
deriving DecidableEq, Repr

/-- `PostProcessingContext` from `src/ui/pipeline.ts`: request state
(read-only), response state and shared metadata (both mutable). -/
structure PostProcessingContext where
  requestState : RestApiRequestState
  responseState : RestApiResponseState
  metadata : List (String × String)
deriving DecidableEq, Repr

/-- Modelled from the spec: a post-processing handler may read its whole
context but may only produce a new response state and new shared metadata;
the request state is a read-only view. -/
structure PostProcessingHandler where
  run : PostProcessingContext → RestApiResponseState × List (String × String)

/-- Modelled from the spec: the host applies a post-processing handler by
installing its response/metadata output in the context; the request state
is carried over unchanged. -/
def applyPostHook (h : PostProcessingHandler) (ctx : PostProcessingContext) :
    PostProcessingContext :=
  { requestState := ctx.requestState
    responseState := (h.run ctx).1
    metadata := (h.run ctx).2 }

/-! ### Extension metadata (src/ui/Extension.ts, src/electron/Extension.ts) -/

/-- `ExtensionMetadata` from `src/shared/types.ts`: exactly the five fields
name, version, description, author, icon. -/
structure ExtensionMetadata where
  name : String
  version : String
  description : Option String
  author : Option String
  icon : Option String
deriving DecidableEq, Repr

/-- The data of a `UIExtension` instance: its metadata fields and its
injected context (opaque, of type `Ctx`). -/
structure UIExtensionData (Ctx : Type) where
  name : String
  version : String
  description : Option String
  author : Option String
  icon : Option String
  ctx : Ctx

/-- The data of an `ElectronExtension` instance. -/
structure ElectronExtensionData (Ctx : Type) where
  name : String
  version : String
  description : Option String
  author : Option String
  icon : Option String
  ctx : Ctx

/-- `UIExtension._getMetadata` from `src/ui/Extension.ts`: builds a fresh
metadata record from the instance's five metadata fields. -/
def uiGetMetadata {Ctx : Type} (e : UIExtensionData Ctx) : ExtensionMetadata :=
  { name := e.name
    version := e.version
    description := e.description
    author := e.author
    icon := e.icon }

/-- `ElectronExtension._getMetadata` from `src/electron/Extension.ts`. -/
def electronGetMetadata {Ctx : Type} (e : ElectronExtensionData Ctx) : ExtensionMetadata :=
  { name := e.name
    version := e.version
    description := e.description
    author := e.author
    icon := e.icon }

/-! ### JSONC utilities (src/shared/utils/jsonc.ts) -/

/-- The scanner modes of the comment stripper. -/
inductive StripMode where
  | normal
  | slash
  | inString
  | inStringEsc
  | lineComment
  | blockComment
  | blockStar
deriving DecidableEq, Repr

/-- One step of the comment stripper: the next mode and the emitted
characters.  `slash` records a pending `/` seen in normal mode; `blockStar`
records a `*` seen inside a block comment. -/
def stripStep : StripMode → Char → StripMode × List Char
  | .normal, c =>
      if c = '"' then (.inString, [c])
      else if c = '/' then (.slash, [])
      else (.normal, [c])
  | .slash, c =>
      if c = '/' then (.lineComment, [])
      else if c = '*' then (.blockComment, [])
      else if c = '"' then (.inString, ['/', c])
      else (.normal, ['/', c])
  | .inString, c =>
      if c = '"' then (.normal, [c])
      else if c = '\\' then (.inStringEsc, [c])
      else (.inString, [c])
  | .inStringEsc, c => (.inString, [c])
  | .lineComment, c =>
      if c = '\n' then (.normal, [c]) else (.lineComment, [])
  | .blockComment, c =>
      if c = '*' then (.blockStar, []) else (.blockComment, [])
  | .blockStar, c =>
      if c = '/' then (.normal, [])
      else if c = '*' then (.blockStar, [])
      else (.blockComment, [])

/-- Characters still owed at end of input: a pending `/` is emitted. -/
def stripFinish : StripMode → List Char
  | .slash => ['/']
  | _ => []

/-- Run the comment stripper from a given mode. -/
def stripRun (m : StripMode) : List Char → List Char
  | [] => stripFinish m
  | c :: rest => (stripStep m c).2 ++ stripRun (stripStep m c).1 rest

/-- Modelled from the spec: `stripComments` (a wrapper over the jsonc-parser
library, whose code is not in this repository) removes `//` and `/* */`
comments and leaves string literal content untouched. -/
def stripComments (s : String) : String :=
  String.mk (stripRun .normal s.data)

/-- A segment of text that the comment stripper passes through verbatim in
normal mode, resuming in normal mode afterwards. -/
def PlainSeg (seg : List Char) : Prop :=
  ∀ tail, stripRun .normal (seg ++ tail) = seg ++ stripRun .normal tail

/-- Modelled from the spec: a JSONC input consisting only of comments and
a JSON text.  `Interleaved x j` holds when `x` is the text `j` with any
number of `//` and `/* */` comments interleaved at any positions outside
string literals: `x` alternates freely between plain segments of `j`
(text the stripper passes through verbatim, which by `parse_segments`
covers every slice of a valid JSON text outside its string literals) and
comments.  A line comment ends at a newline; that newline is whitespace
of `j` itself, so a line comment may sit wherever `j` has a line break,
and block comments may sit anywhere between plain segments. -/
inductive Interleaved : List Char → List Char → Prop where
  | nil : Interleaved [] []
  | piece (p x j : List Char) : PlainSeg p → Interleaved x j →
      Interleaved (p ++ x) (p ++ j)
  | block (b x j : List Char) : '*' ∉ b → Interleaved x j →
      Interleaved ('/' :: ('*' :: (b ++ ('*' :: ('/' :: x))))) j
  | line (a x j : List Char) : '\n' ∉ a → Interleaved x j →
      Interleaved ('/' :: ('/' :: (a ++ ('\n' :: x)))) ('\n' :: j)

/-- The open and close brace characters. -/
def lbraceChar : Char := Char.ofNat 123

/-- See `lbraceChar`. -/
def rbraceChar : Char := Char.ofNat 125

/-! #### JSONC pretty printer -/

/-- Tokens of a JSONC document: punctuation, lexemes (strings, numbers,
keywords) and comments. -/
inductive JTok where
  | lbrace
  | rbrace
  | lbrack
  | rbrack
  | comma
  | colon
  | lexeme (cs : List Char)
  | lineComment (cs : List Char)
  | blockComment (cs : List Char)
deriving DecidableEq, Repr

/-- Whitespace recognised by JSON. -/
def isWsChar (c : Char) : Bool :=
  c = ' ' || c = '\t' || c = '\n' || c = '\r'

/-- Structural punctuation of JSON. -/
def isPunct (c : Char) : Bool :=
  c = lbraceChar || c = rbraceChar || c = '[' || c = ']' || c = ',' || c = ':'

/-- Scan a string literal body after the opening quote: returns the body
(with escape pairs kept verbatim) and the input after the closing quote.
The boolean flag records whether the previous character was an unconsumed
backslash. -/
def scanStringBody : Bool → List Char → Option (List Char × List Char)
  | _, [] => none
  | true, c :: rest =>
      (scanStringBody false rest).map (fun r => (c :: r.1, r.2))
  | false, c :: rest =>
      if c = '"' then some ([], rest)
      else if c = '\\' then (scanStringBody true rest).map (fun r => (c :: r.1, r.2))
      else (scanStringBody false rest).map (fun r => (c :: r.1, r.2))

/-- Match an expected literal prefix, returning the remainder. -/
def expectChars : List Char → List Char → Option (List Char)
  | [], cs => some cs
  | _ :: _, [] => none
  | e :: es, c :: cs => if c = e then expectChars es cs else none

/-- The stripper mode corresponding to a string-scan escape flag. -/
def stringMode : Bool → StripMode
  | true => .inStringEsc
  | false => .inString

/-- Split a block comment body at the closing `*/` (inclusive). -/
def splitBlockComment : List Char → List Char × List Char
  | [] => ([], [])
  | '*' :: '/' :: rest => (['*', '/'], rest)
  | c :: rest =>
      ((splitBlockComment rest).1.cons c, (splitBlockComment rest).2)
termination_by l => l.length

/-- Tokenize a JSONC document (fuelled; the fuel is the input length, and
every step consumes at least one character). -/
def tokenizeAux : Nat → List Char → List JTok
  | 0, _ => []
  | _, [] => []
  | fuel + 1, c :: rest =>
    if isWsChar c then tokenizeAux fuel rest
    else if c = lbraceChar then .lbrace :: tokenizeAux fuel rest
    else if c = rbraceChar then .rbrace :: tokenizeAux fuel rest
    else if c = '[' then .lbrack :: tokenizeAux fuel rest
    else if c = ']' then .rbrack :: tokenizeAux fuel rest
    else if c = ',' then .comma :: tokenizeAux fuel rest
    else if c = ':' then .colon :: tokenizeAux fuel rest
    else if c = '"' then
      match scanStringBody false rest with
      | some r => .lexeme ('"' :: r.1 ++ ['"']) :: tokenizeAux fuel r.2
      | none => [.lexeme ('"' :: rest)]
    else if c = '/' then
      match rest with
      | '/' :: r2 =>
          let body := r2.takeWhile (fun d => d ≠ '\n')
          .lineComment ('/' :: '/' :: body) :: tokenizeAux fuel (r2.drop body.length)
      | '*' :: r2 =>
          let r := splitBlockComment r2
          .blockComment ('/' :: '*' :: r.1) :: tokenizeAux fuel r.2
      | _ => .lexeme [c] :: tokenizeAux fuel rest
    else
      let run := (c :: rest).takeWhile (fun d => !(isWsChar d || isPunct d || d = '"' || d = '/'))
      .lexeme run :: tokenizeAux fuel ((c :: rest).drop run.length)

/-- Tokenize with enough fuel for the whole input. -/
def tokenize (cs : List Char) : List JTok :=
  tokenizeAux (cs.length + 1) cs

/-- Raw text of a token. -/
def tokText : JTok → List Char
  | .lbrace => [lbraceChar]
  | .rbrace => [rbraceChar]
  | .lbrack => ['[']
  | .rbrack => [']']
  | .comma => [',']
  | .colon => [':']
  | .lexeme cs => cs
  | .lineComment cs => cs
  | .blockComment cs => cs

/-- Two-space indentation. -/
def indentChars (n : Nat) : List Char := List.replicate (2 * n) ' '

/-- Separator emitted between two adjacent tokens, and the indentation
level in force after it.  Empty objects and arrays stay on one line; an
opening bracket indents; a closing bracket dedents; commas and line
comments break the line; a colon is followed by one space. -/
def sepInfo (t₁ t₂ : JTok) (ind : Nat) : List Char × Nat :=
  match t₁, t₂ with
  | .lbrace, .rbrace => ([], ind)
  | .lbrack, .rbrack => ([], ind)
  | .lbrace, _ => ('\n' :: indentChars (ind + 1), ind + 1)
  | .lbrack, _ => ('\n' :: indentChars (ind + 1), ind + 1)
  | _, .rbrace => ('\n' :: indentChars (ind - 1), ind - 1)
  | _, .rbrack => ('\n' :: indentChars (ind - 1), ind - 1)
  | .colon, _ => ([' '], ind)
  | .comma, _ => ('\n' :: indentChars ind, ind)
  | .lineComment _, _ => ('\n' :: indentChars ind, ind)
  | _, _ => ([], ind)

/-- Print a token stream with 2-space indentation. -/
def printToks (ind : Nat) : List JTok → List Char
  | [] => []
  | [t] => tokText t
  | t₁ :: t₂ :: rest =>
      tokText t₁ ++ (sepInfo t₁ t₂ ind).1 ++ printToks (sepInfo t₁ t₂ ind).2 (t₂ :: rest)

/-- Modelled from the spec: `prettifyJSONC` (a wrapper over the
jsonc-parser formatter, whose code is not in this repository) reformats a
JSONC document with 2-space indentation, preserving comments; empty input
stays empty and empty objects/arrays stay on one line. -/
def prettifyJSONC (s : String) : String :=
  String.mk (printToks 0 (tokenize s.data))

/-! #### JSON parser (models JSON.parse acceptance) -/

/-- Parsed JSON values.  Number and string payloads keep their lexemes;
only acceptance matters here. -/
inductive Json where
  | null
  | bool (b : Bool)
  | num (lexeme : List Char)
  | str (s : List Char)
  | arr (elems : List Json)
  | obj (fields : List (List Char × Json))

/-- Drop leading JSON whitespace. -/
def skipWs : List Char → List Char
  | [] => []
  | c :: rest => if isWsChar c then skipWs rest else c :: rest

/-- Decimal digit test. -/
def isDigitChar (c : Char) : Bool := '0' ≤ c && c ≤ '9'

/-- Split a leading run of digits. -/
def takeDigits : List Char → List Char × List Char
  | [] => ([], [])
  | c :: rest =>
      if isDigitChar c then
        ((takeDigits rest).1.cons c, (takeDigits rest).2)
      else ([], c :: rest)

/-- Split a leading minus sign. -/
def splitMinus (cs : List Char) : List Char × List Char :=
  match cs with
  | c :: r => if c = '-' then ([c], r) else ([], c :: r)
  | [] => ([], [])

/-- Split the integer part of a JSON number: a lone `0` or a nonzero digit
followed by digits. -/
def splitIntPart (cs : List Char) : Option (List Char × List Char) :=
  match cs with
  | c :: r =>
      if c = '0' then some ([c], r)
      else if isDigitChar c then some (c :: (takeDigits r).1, (takeDigits r).2)
      else none
  | [] => none

/-- Split an optional fraction part: a dot followed by at least one digit. -/
def splitFracPart (cs : List Char) : Option (List Char × List Char) :=
  match cs with
  | c :: r =>
      if c = '.' then
        match takeDigits r with
        | ([], _) => none
        | (ds, r2) => some (c :: ds, r2)
      else some ([], c :: r)
  | [] => some ([], [])

/-- Split an optional sign of an exponent. -/
def splitExpSign (cs : List Char) : List Char × List Char :=
  match cs with
  | c :: r => if c = '+' ∨ c = '-' then ([c], r) else ([], c :: r)
  | [] => ([], [])

/-- Split an optional exponent part: `e`/`E`, optional sign, digits. -/
def splitExpPart (cs : List Char) : Option (List Char × List Char) :=
  match cs with
  | c :: r =>
      if c = 'e' ∨ c = 'E' then
        match takeDigits (splitExpSign r).2 with
        | ([], _) => none
        | (ds, r3) => some (c :: ((splitExpSign r).1 ++ ds), r3)
      else some ([], c :: r)
  | [] => some ([], [])

/-- Parse a JSON number (sign, integer part without leading zeros,
optional fraction, optional exponent); returns the lexeme and the rest. -/
def parseNumber (cs : List Char) : Option (List Char × List Char) :=
  match splitIntPart (splitMinus cs).2 with
  | none => none
  | some (ip, afterInt) =>
    match splitFracPart afterInt with
    | none => none
    | some (fp, afterFrac) =>
      match splitExpPart afterFrac with
      | none => none
      | some (ep, rest) => some ((splitMinus cs).1 ++ (ip ++ (fp ++ ep)), rest)

mutual

/-- Parse one JSON value (fuelled recursive descent): leading whitespace,
then a literal, string, array, object or number. -/
def parseValue : Nat → List Char → Option (Json × List Char)
  | 0, _ => none
  | fuel + 1, cs =>
    match expectChars ['n', 'u', 'l', 'l'] (skipWs cs) with
    | some r => some (.null, r)
    | none =>
    match expectChars ['t', 'r', 'u', 'e'] (skipWs cs) with
    | some r => some (.bool true, r)
    | none =>
    match expectChars ['f', 'a', 'l', 's', 'e'] (skipWs cs) with
    | some r => some (.bool false, r)
    | none =>
    match expectChars ['"'] (skipWs cs) with
    | some r =>
        (match scanStringBody false r with
         | some sb => some (.str sb.1, sb.2)
         | none => none)
    | none =>
    match expectChars ['['] (skipWs cs) with
    | some r =>
        (match expectChars [']'] (skipWs r) with
         | some r2 => some (.arr [], r2)
         | none =>
           match parseElems fuel (skipWs r) with
           | some (es, r3) => some (.arr es, r3)
           | none => none)
    | none =>
    match expectChars [lbraceChar] (skipWs cs) with
    | some r =>
        (match expectChars [rbraceChar] (skipWs r) with
         | some r2 => some (.obj [], r2)
         | none =>
           match parseFields fuel (skipWs r) with
           | some (fs, r3) => some (.obj fs, r3)
           | none => none)
    | none =>
    match parseNumber (skipWs cs) with
    | some r => some (.num r.1, r.2)
    | none => none

/-- Parse the elements of a non-empty array, including the closing `]`. -/
def parseElems : Nat → List Char → Option (List Json × List Char)
  | 0, _ => none
  | fuel + 1, cs =>
    match parseValue fuel cs with
    | none => none
    | some (v, rest) =>
      match expectChars [','] (skipWs rest) with
      | some r2 =>
          (match parseElems fuel r2 with
           | some (es, r3) => some (v :: es, r3)
           | none => none)
      | none =>
        match expectChars [']'] (skipWs rest) with
        | some r2 => some ([v], r2)
        | none => none

/-- Parse the fields of a non-empty object, including the closing brace. -/
def parseFields : Nat → List Char → Option (List (List Char × Json) × List Char)
  | 0, _ => none
  | fuel + 1, cs =>
    match expectChars ['"'] (skipWs cs) with
    | none => none
    | some r =>
      match scanStringBody false r with
      | none => none
      | some (key, rest1) =>
        match expectChars [':'] (skipWs rest1) with
        | none => none
        | some rest2 =>
          match parseValue fuel rest2 with
          | none => none
          | some (v, rest3) =>
            match expectChars [','] (skipWs rest3) with
            | some rest4 =>
                (match parseFields fuel rest4 with
                 | some (fs, rest5) => some ((key, v) :: fs, rest5)
                 | none => none)
            | none =>
              match expectChars [rbraceChar] (skipWs rest3) with
              | some rest4 => some ([(key, v)], rest4)
              | none => none

end

/-- Modelled from the spec: acceptance of `JSON.parse` -- one JSON value,
surrounded only by whitespace. -/
def parseJSON (s : String) : Option Json :=
  let cs := skipWs s.data
  match parseValue (cs.length + 1) cs with
  | some (v, rest) => if skipWs rest = [] then some v else none
  | none => none

/-! ## Theorems -/

/-- Claim C1 fails as stated: the environment-facing surface reachable from
an extension context is not name-only, because the deprecated
`LegacyEnvironmentAPI` still exposed as the `environment` member of
`UIExtensionContext` (src/ui/types.ts) returns full key-to-value records.
Two environments which agree on the key API_KEY but hold different secret
values are distinguished by `LegacyEnvironmentAPI.get`. -/
theorem env_surface_not_name_only : ¬ EnvSurfaceNameOnly := by
  intro h
  have hval := h.2.2.2.1 [("API_KEY", "secret-one")] [("API_KEY", "secret-two")] rfl
  exact absurd hval (by decide)

/-- Claim C1 (amended): restricted to the secure `EnvironmentAPI` surface
(`getKeys`, `has`, `onChange`), every return shape and callback payload
depends only on the variable names, never on a value string. -/
theorem secure_env_surface_name_only :
    ValueIndependent EnvironmentAPI.getKeys ∧
    (∀ k, ValueIndependent (fun e => EnvironmentAPI.has e k)) ∧
    ValueIndependent EnvironmentAPI.onChangePayload := by
  refine ⟨?_, ?_, ?_⟩
  · intro e₁ e₂ h
    simpa [EnvironmentAPI.getKeys] using h
  · intro k e₁ e₂ h
    simp only [EnvironmentAPI.has, h]
  · intro e₁ e₂ h
    simpa [EnvironmentAPI.onChangePayload] using h

/-- Witness for the amended C1 theorem at a concrete pair of environments
agreeing on keys but not on values. -/
theorem secure_env_surface_name_only_witness :
    EnvironmentAPI.getKeys [("API_KEY", "secret-one")] =
      EnvironmentAPI.getKeys [("API_KEY", "secret-two")] :=
  secure_env_surface_name_only.1 [("API_KEY", "secret-one")]
    [("API_KEY", "secret-two")] rfl

/-- Claim C4: a helper registration whose capability object has any
required flag (`pure`, `noNetwork`, `noFileSystem`, `noEnvironment`) not
literally `true` -- set to `false` or missing -- fails validation and is
rejected. -/
theorem helper_capability_gate {α : Type} (reg : HelperRegistry α)
    (ext : String) (helpers : List (String × α)) (cap : CapabilityClaim)
    (hbad : cap.pure ≠ some true ∨ cap.noNetwork ≠ some true ∨
      cap.noFileSystem ≠ some true ∨ cap.noEnvironment ≠ some true) :
    ∃ msg, HelperAPI.register reg ext helpers cap = .error msg := by
  have hiff : capabilityAccepted cap = true ↔
      (cap.pure = some true ∧ cap.noNetwork = some true ∧
        cap.noFileSystem = some true ∧ cap.noEnvironment = some true) := by
    simp [capabilityAccepted, Bool.and_eq_true, beq_iff_eq, and_assoc]
  have hacc : capabilityAccepted cap = false := by
    rcases Bool.eq_false_or_eq_true (capabilityAccepted cap) with hf | ht
    · exact absurd (hiff.mp hf) (by tauto)
    · exact ht
  exact ⟨"helper registration rejected: capability flags must all be literally true",
    by simp [HelperAPI.register, hacc]⟩

/-- Witness for C4: a registration claiming `pure: false` is rejected. -/
theorem helper_capability_gate_witness :
    (some false ≠ some true ∨ some true ≠ some true ∨ some true ≠ some true ∨
      some true ≠ some true) ∧
    ∃ msg, HelperAPI.register ([] : HelperRegistry Nat) "ext-a" []
      ⟨some false, some true, some true, some true⟩ = .error msg :=
  ⟨by decide, helper_capability_gate [] "ext-a" []
    ⟨some false, some true, some true, some true⟩ (by decide)⟩

/-- Claim C5: a post-processing handler gets a read-only view of the
request state -- applying any handler leaves every field of
`RestApiRequestState` unchanged -- and it observes only the fields its
context type exposes (its input is exactly a `PostProcessingContext`). -/
theorem postprocessing_request_read_only (h : PostProcessingHandler)
    (ctx : PostProcessingContext) :
    (applyPostHook h ctx).requestState = ctx.requestState ∧
    (applyPostHook h ctx).requestState.method = ctx.requestState.method ∧
    (applyPostHook h ctx).requestState.url = ctx.requestState.url ∧
    (applyPostHook h ctx).requestState.headers = ctx.requestState.headers ∧
    (applyPostHook h ctx).requestState.queryParams = ctx.requestState.queryParams ∧
    (applyPostHook h ctx).requestState.pathParams = ctx.requestState.pathParams ∧
    (applyPostHook h ctx).requestState.body = ctx.requestState.body ∧
    (applyPostHook h ctx).requestState.contentType = ctx.requestState.contentType ∧
    (applyPostHook h ctx).requestState.metadata = ctx.requestState.metadata :=
  ⟨rfl, rfl, rfl, rfl, rfl, rfl, rfl, rfl, rfl⟩

/-- Claim C6: `unregisterAll` removes every hook of the calling extension,
is idempotent, and is a no-op (raising no error, being total) on a registry
holding no hook of that extension. -/
theorem unregisterAll_removes_all_idempotent (reg : HookRegistry) (ext : String) :
    PipelineAPI.unregisterAll (PipelineAPI.unregisterAll reg ext) ext =
      PipelineAPI.unregisterAll reg ext ∧
    (∀ h ∈ PipelineAPI.unregisterAll reg ext, h.ext ≠ ext) ∧
    ((∀ h ∈ reg, h.ext ≠ ext) → PipelineAPI.unregisterAll reg ext = reg) := by
  refine ⟨?_, ?_, ?_⟩
  · simp [PipelineAPI.unregisterAll, List.filter_filter]
  · intro h hm
    have := List.mem_filter.mp hm
    simpa using this.2
  · intro hnone
    apply List.filter_eq_self.mpr
    intro h hm
    simpa using hnone h hm

/-- Witness for C6 at a concrete one-hook registry belonging to another
extension: removal is a no-op and idempotent. -/
theorem unregisterAll_removes_all_idempotent_witness :
    (∀ h ∈ [(⟨.preSend, 100, "ext-a", 0, false⟩ : Hook)], h.ext ≠ "ext-b") ∧
    PipelineAPI.unregisterAll [(⟨.preSend, 100, "ext-a", 0, false⟩ : Hook)] "ext-b" =
      [(⟨.preSend, 100, "ext-a", 0, false⟩ : Hook)] ∧
    PipelineAPI.unregisterAll
        (PipelineAPI.unregisterAll [(⟨.preSend, 100, "ext-a", 0, false⟩ : Hook)] "ext-b")
        "ext-b" =
      PipelineAPI.unregisterAll [(⟨.preSend, 100, "ext-a", 0, false⟩ : Hook)] "ext-b" :=
  ⟨by decide,
    (unregisterAll_removes_all_idempotent
      [(⟨.preSend, 100, "ext-a", 0, false⟩ : Hook)] "ext-b").2.2 (by decide),
    (unregisterAll_removes_all_idempotent
      [(⟨.preSend, 100, "ext-a", 0, false⟩ : Hook)] "ext-b").1⟩

/-- Claim C7: for every `(extensionId, helperName)` pair -- registered or
not -- `get` returns either the registered function or a not-found result
(it is a total function into `Option`, so it cannot throw), `has` is a pure
boolean mirror of `get`, and a pair under an unknown extension id is an
ordinary `none`. -/
theorem helper_lookup_never_throws {α : Type} (reg : HelperRegistry α)
    (ext helperName : String) :
    (HelperAPI.has reg ext helperName = (HelperAPI.get reg ext helperName).isSome) ∧
    (HelperAPI.get reg ext helperName = none ∨
      ∃ f, HelperAPI.get reg ext helperName = some f ∧
        ∃ coll, reg.lookup ext = some coll ∧ coll.lookup helperName = some f) ∧
    (reg.lookup ext = none → HelperAPI.get reg ext helperName = none) := by
  refine ⟨rfl, ?_, ?_⟩
  · cases hl : reg.lookup ext with
    | none => exact Or.inl (by simp [HelperAPI.get, hl])
    | some coll =>
      cases hn : coll.lookup helperName with
      | none => exact Or.inl (by simp [HelperAPI.get, hl, hn])
      | some f => exact Or.inr ⟨f, by simp [HelperAPI.get, hl, hn], coll, rfl, hn⟩
  · intro hnone
    simp [HelperAPI.get, hnone]

/-- Witness for C7 on the empty registry and a never-registered pair. -/
theorem helper_lookup_never_throws_witness :
    (([] : HelperRegistry Nat).lookup "ghost-ext" = none) ∧
    HelperAPI.get ([] : HelperRegistry Nat) "ghost-ext" "ghost-helper" = none :=
  ⟨rfl, (helper_lookup_never_throws ([] : HelperRegistry Nat)
    "ghost-ext" "ghost-helper").2.2 rfl⟩

/-- Claim C10: `_getMetadata` on a UI or Electron extension instance builds
a record of exactly the five metadata fields, copied verbatim from the
instance, and depends on (and changes) neither the instance's injected
context nor anything else: it is a pure function of the five fields. -/
theorem getMetadata_copies_five_fields {Ctx : Type}
    (u : UIExtensionData Ctx) (el : ElectronExtensionData Ctx) :
    uiGetMetadata u =
      ⟨u.name, u.version, u.description, u.author, u.icon⟩ ∧
    electronGetMetadata el =
      ⟨el.name, el.version, el.description, el.author, el.icon⟩ ∧
    (∀ c : Ctx, uiGetMetadata { u with ctx := c } = uiGetMetadata u) ∧
    (∀ c : Ctx, electronGetMetadata { el with ctx := c } = electronGetMetadata el) :=
  ⟨rfl, rfl, fun _ => rfl, fun _ => rfl⟩

/-! ### Ordering lemmas for the stage execution order -/

/-- Ordered insertion produces a permutation of consing. -/
theorem insertOrd_perm (p : Hook → Hook → Bool) (h : Hook) (l : List Hook) :
    (insertOrd p h l).Perm (h :: l) := by
  induction l with
  | nil => simp [insertOrd]
  | cons x xs ih =>
    by_cases hp : p h x
    · simp [insertOrd, hp]
    · simp only [insertOrd, hp, if_false]
      exact (List.Perm.cons x ih).trans (List.Perm.swap h x xs)

/-- The insertion sort permutes its input. -/
theorem sortOrd_perm (p : Hook → Hook → Bool) (l : List Hook) :
    (sortOrd p l).Perm l := by
  induction l with
  | nil => simp [sortOrd]
  | cons x xs ih =>
    exact (insertOrd_perm p x (sortOrd p xs)).trans (List.Perm.cons x ih)

/-- Membership in the insertion sort is membership in the input. -/
theorem mem_sortOrd {p : Hook → Hook → Bool} {x : Hook} {l : List Hook} :
    x ∈ sortOrd p l ↔ x ∈ l :=
  (sortOrd_perm p l).mem_iff

/-- Two comparisons that agree between the inserted hook and every element
of the list produce the same insertion. -/
theorem insertOrd_congr (p q : Hook → Hook → Bool) (h : Hook) (l : List Hook)
    (hpq : ∀ x ∈ l, p h x = q h x) : insertOrd p h l = insertOrd q h l := by
  induction l with
  | nil => rfl
  | cons x xs ih =>
    have hx := hpq x (List.mem_cons_self x xs)
    by_cases hp : p h x
    · simp [insertOrd, hp, ← hx]
    · have hq : ¬ q h x = true := by rw [← hx]; exact hp
      simp only [insertOrd, hp, if_false, hq]
      rw [ih (fun y hy => hpq y (List.mem_cons_of_mem x hy))]

/-- Ordered insertion preserves pairwise sortedness for a total transitive
comparison. -/
theorem insertOrd_pairwise (p : Hook → Hook → Bool)
    (htot : ∀ a b, p a b = true ∨ p b a = true)
    (htrans : ∀ a b c, p a b = true → p b c = true → p a c = true)
    (h : Hook) (l : List Hook) (hl : l.Pairwise (fun a b => p a b = true)) :
    (insertOrd p h l).Pairwise (fun a b => p a b = true) := by
  induction l with
  | nil => simp [insertOrd]
  | cons x xs ih =>
    rcases List.pairwise_cons.mp hl with ⟨hx, hxs⟩
    by_cases hp : p h x
    · simp only [insertOrd, hp, if_true]
      refine List.pairwise_cons.mpr ⟨?_, hl⟩
      intro y hy
      rcases List.mem_cons.mp hy with rfl | hy'
      · exact hp
      · exact htrans h x y hp (hx y hy')
    · simp only [insertOrd, hp, if_false]
      refine List.pairwise_cons.mpr ⟨?_, ih hxs⟩
      intro y hy
      have : y ∈ insertOrd p h xs := hy
      rcases List.mem_cons.mp ((insertOrd_perm p h xs).mem_iff.mp this) with rfl | hy'
      · rcases htot x y with hxy | hyx
        · exact hxy
        · exact absurd hyx hp
      · exact hx y hy'

/-- The insertion sort produces a pairwise-sorted list. -/
theorem sortOrd_pairwise (p : Hook → Hook → Bool)
    (htot : ∀ a b, p a b = true ∨ p b a = true)
    (htrans : ∀ a b c, p a b = true → p b c = true → p a c = true)
    (l : List Hook) : (sortOrd p l).Pairwise (fun a b => p a b = true) := by
  induction l with
  | nil => simp [sortOrd]
  | cons x xs ih => exact insertOrd_pairwise p htot htrans x (sortOrd p xs) ih

/-- On a registration sequence with strictly increasing registration
indices, sorting by priority alone coincides with sorting by the
lexicographic (priority, registration index) key: the stable sort. -/
theorem sortOrd_hookLE_eq_sortLex (l : List Hook)
    (hl : l.Pairwise (fun a b => a.regIndex < b.regIndex)) :
    sortOrd hookLE l = sortLex l := by
  induction l with
  | nil => rfl
  | cons a l ih =>
    rcases List.pairwise_cons.mp hl with ⟨ha, hl'⟩
    show insertOrd hookLE a (sortOrd hookLE l) = insertOrd hookLexLE a (sortLex l)
    rw [ih hl']
    refine insertOrd_congr hookLE hookLexLE a (sortLex l) ?_
    intro x hx
    have hreg : a.regIndex < x.regIndex := ha x (mem_sortOrd.mp hx)
    simp only [hookLE, hookLexLE, decide_eq_decide]
    omega

/-- The lexicographic comparison is total. -/
theorem hookLexLE_total (a b : Hook) : hookLexLE a b = true ∨ hookLexLE b a = true := by
  simp only [hookLexLE, decide_eq_true_eq]
  omega

/-- The lexicographic comparison is transitive. -/
theorem hookLexLE_trans (a b c : Hook) (h₁ : hookLexLE a b = true)
    (h₂ : hookLexLE b c = true) : hookLexLE a c = true := by
  simp only [hookLexLE, decide_eq_true_eq] at h₁ h₂ ⊢
  omega

/-- Claim C2: within one stage, the execution order is the stable sort of
the registration sequence by priority ascending (ties broken by
registration order): it equals the insertion sort by the (priority,
registration index) key, which permutes the stage's registration sequence
and is sorted for that key. -/
theorem stage_execution_is_stable_priority_sort (reg : HookRegistry)
    (stage : PipelineStage)
    (hreg : reg.Pairwise (fun a b => a.regIndex < b.regIndex)) :
    stageExecOrder reg stage = sortLex (reg.filter (fun h => h.stage == stage)) ∧
    (sortLex (reg.filter (fun h => h.stage == stage))).Perm
      (reg.filter (fun h => h.stage == stage)) ∧
    (sortLex (reg.filter (fun h => h.stage == stage))).Pairwise
      (fun a b => hookLexLE a b = true) := by
  refine ⟨?_, sortOrd_perm _ _, sortOrd_pairwise _ hookLexLE_total hookLexLE_trans _⟩
  exact sortOrd_hookLE_eq_sortLex _ (hreg.filter _)

/-- Witness for C2: hooks registered at priorities [50, 100, 10] in that
registration order execute in priority order [10, 50, 100], and two hooks
registered at the same priority execute in registration order. -/
theorem stage_execution_is_stable_priority_sort_witness :
    (List.Pairwise (fun a b => a.regIndex < b.regIndex)
      [(⟨.preSend, 50, "ext-a", 0, false⟩ : Hook),
        ⟨.preSend, 100, "ext-a", 1, false⟩, ⟨.preSend, 10, "ext-b", 2, false⟩]) ∧
    stageExecOrder
        [(⟨.preSend, 50, "ext-a", 0, false⟩ : Hook),
          ⟨.preSend, 100, "ext-a", 1, false⟩, ⟨.preSend, 10, "ext-b", 2, false⟩]
        .preSend =
      sortLex (List.filter (fun h => h.stage == .preSend)
        [(⟨.preSend, 50, "ext-a", 0, false⟩ : Hook),
          ⟨.preSend, 100, "ext-a", 1, false⟩, ⟨.preSend, 10, "ext-b", 2, false⟩]) ∧
    (stageExecOrder
        [(⟨.preSend, 50, "ext-a", 0, false⟩ : Hook),
          ⟨.preSend, 100, "ext-a", 1, false⟩, ⟨.preSend, 10, "ext-b", 2, false⟩]
        .preSend).map Hook.priority = [10, 50, 100] ∧
    (stageExecOrder
        [(⟨.preProcessing, 100, "first", 0, false⟩ : Hook),
          ⟨.preProcessing, 100, "second", 1, false⟩]
        .preProcessing).map Hook.ext = ["first", "second"] :=
  ⟨by decide,
    (stage_execution_is_stable_priority_sort
      [(⟨.preSend, 50, "ext-a", 0, false⟩ : Hook),
        ⟨.preSend, 100, "ext-a", 1, false⟩, ⟨.preSend, 10, "ext-b", 2, false⟩]
      .preSend (by decide)).1,
    by decide, by decide⟩

/-- Claim C3: if any pre-processing hook invokes cancel, the pipeline run
stops before request compilation -- no hook registered at the
RequestCompilation, PreSend or PostProcessing stage appears in the trace of
executed hooks. -/
theorem preprocessing_cancel_stops_pipeline (reg : HookRegistry)
    (hc : ∃ h ∈ reg, h.stage = .preProcessing ∧ h.cancels = true) :
    ∀ h ∈ runPipeline reg, h.stage = PipelineStage.preProcessing := by
  obtain ⟨h0, hmem, hstage, hcan⟩ := hc
  have hfil : h0 ∈ reg.filter (fun h => h.stage == .preProcessing) :=
    List.mem_filter.mpr ⟨hmem, by simp [hstage]⟩
  have hpre : h0 ∈ stageExecOrder reg .preProcessing := mem_sortOrd.mpr hfil
  have hany : (stageExecOrder reg .preProcessing).any Hook.cancels = true :=
    List.any_eq_true.mpr ⟨h0, hpre, hcan⟩
  intro h hh
  rw [runPipeline] at hh
  simp only [hany, if_true] at hh
  have : h ∈ reg.filter (fun h => h.stage == .preProcessing) := mem_sortOrd.mp hh
  have := (List.mem_filter.mp this).2
  simpa using this

/-- Witness for C3: with a cancelling pre-processing hook and hooks at all
later stages registered, only pre-processing hooks execute. -/
theorem preprocessing_cancel_stops_pipeline_witness :
    (∃ h ∈ [(⟨.preProcessing, 100, "ext-a", 0, true⟩ : Hook),
        ⟨.requestCompilation, 100, "ext-a", 1, false⟩,
        ⟨.preSend, 100, "ext-b", 2, false⟩,
        ⟨.postProcessing, 100, "ext-b", 3, false⟩],
      h.stage = PipelineStage.preProcessing ∧ h.cancels = true) ∧
    ∀ h ∈ runPipeline
        [(⟨.preProcessing, 100, "ext-a", 0, true⟩ : Hook),
          ⟨.requestCompilation, 100, "ext-a", 1, false⟩,
          ⟨.preSend, 100, "ext-b", 2, false⟩,
          ⟨.postProcessing, 100, "ext-b", 3, false⟩],
      h.stage = PipelineStage.preProcessing :=
  ⟨by decide,
    preprocessing_cancel_stops_pipeline
      [(⟨.preProcessing, 100, "ext-a", 0, true⟩ : Hook),
        ⟨.requestCompilation, 100, "ext-a", 1, false⟩,
        ⟨.preSend, 100, "ext-b", 2, false⟩,
        ⟨.postProcessing, 100, "ext-b", 3, false⟩] (by decide)⟩

/-! ### Lemmas about the comment stripper -/

/-- Characters that are neither a quote nor a slash pass through the
stripper unchanged in normal mode. -/
theorem stripRun_plain (pre : List Char) (hpre : ∀ c ∈ pre, c ≠ '"' ∧ c ≠ '/')
    (l : List Char) :
    stripRun .normal (pre ++ l) = pre ++ stripRun .normal l := by
  induction pre with
  | nil => rfl
  | cons c cs ih =>
    obtain ⟨h1, h2⟩ := hpre c (List.mem_cons_self c cs)
    have ih' := ih (fun x hx => hpre x (List.mem_cons_of_mem c hx))
    simp [stripRun, stripStep, h1, h2, ih']

/-- String-literal bodies pass through the stripper unchanged, up to the
closing quote, after which stripping resumes in normal mode. -/
theorem stripRun_string_body (s : List Char)
    (hs : ∀ c ∈ s, c ≠ '"' ∧ c ≠ '\\') (l : List Char) :
    stripRun .inString (s ++ ('"' :: l)) = s ++ ('"' :: stripRun .normal l) := by
  induction s with
  | nil => simp [stripRun, stripStep]
  | cons c cs ih =>
    obtain ⟨h1, h2⟩ := hs c (List.mem_cons_self c cs)
    have ih' := ih (fun x hx => hs x (List.mem_cons_of_mem c hx))
    simp [stripRun, stripStep, h1, h2, ih']

/-- A line comment body is dropped; the terminating newline is kept and
stripping resumes in normal mode. -/
theorem stripRun_line_comment (a : List Char) (ha : '\n' ∉ a) (l : List Char) :
    stripRun .lineComment (a ++ ('\n' :: l)) = '\n' :: stripRun .normal l := by
  induction a with
  | nil => simp [stripRun, stripStep]
  | cons c cs ih =>
    have h1 : c ≠ '\n' := fun hc => ha (hc ▸ List.mem_cons_self c cs)
    have ih' := ih (fun hx => ha (List.mem_cons_of_mem c hx))
    simp [stripRun, stripStep, h1, ih']

/-- A block comment body is dropped entirely, including the closing
star-slash, after which stripping resumes in normal mode. -/
theorem stripRun_block_comment (b : List Char) (hb : '*' ∉ b) (l : List Char) :
    stripRun .blockComment (b ++ ('*' :: ('/' :: l))) = stripRun .normal l := by
  induction b with
  | nil => simp [stripRun, stripStep]
  | cons c cs ih =>
    have h1 : c ≠ '*' := fun hc => hb (hc ▸ List.mem_cons_self c cs)
    have ih' := ih (fun hx => hb (List.mem_cons_of_mem c hx))
    simp [stripRun, stripStep, h1, ih']

/-- Claim C8: `stripComments` removes `//` and `/* */` comments but never
alters content inside string literals.  First conjunct: a string literal
(any body without quote or backslash, in particular one containing `//`)
passes through verbatim, stripping resuming after it.  Second and third
conjuncts: a line comment and a block comment following plain text are
removed. -/
theorem stripComments_string_literals_and_comments :
    (∀ pre s post : List Char,
      (∀ c ∈ pre, c ≠ '"' ∧ c ≠ '/') → (∀ c ∈ s, c ≠ '"' ∧ c ≠ '\\') →
      stripComments (String.mk (pre ++ ('"' :: (s ++ ('"' :: post))))) =
        String.mk (pre ++ ('"' :: (s ++ ('"' :: stripRun .normal post))))) ∧
    (∀ pre a post : List Char,
      (∀ c ∈ pre, c ≠ '"' ∧ c ≠ '/') → '\n' ∉ a →
      stripComments (String.mk (pre ++ ('/' :: ('/' :: (a ++ ('\n' :: post)))))) =
        String.mk (pre ++ ('\n' :: stripRun .normal post))) ∧
    (∀ pre b post : List Char,
      (∀ c ∈ pre, c ≠ '"' ∧ c ≠ '/') → '*' ∉ b →
      stripComments (String.mk (pre ++ ('/' :: ('*' :: (b ++ ('*' :: ('/' :: post))))))) =
        String.mk (pre ++ stripRun .normal post)) := by
  refine ⟨?_, ?_, ?_⟩
  · intro pre s post hpre hs
    apply congrArg String.mk
    show stripRun .normal (pre ++ ('"' :: (s ++ ('"' :: post)))) = _
    rw [stripRun_plain pre hpre]
    have h0 : stripRun .normal ('"' :: (s ++ ('"' :: post))) =
        '"' :: stripRun .inString (s ++ ('"' :: post)) := by
      simp [stripRun, stripStep]
    rw [h0, stripRun_string_body s hs post]
  · intro pre a post hpre ha
    apply congrArg String.mk
    show stripRun .normal (pre ++ ('/' :: ('/' :: (a ++ ('\n' :: post))))) = _
    rw [stripRun_plain pre hpre]
    have h0 : stripRun .normal ('/' :: ('/' :: (a ++ ('\n' :: post)))) =
        stripRun .lineComment (a ++ ('\n' :: post)) := by
      simp [stripRun, stripStep]
    rw [h0, stripRun_line_comment a ha post]
  · intro pre b post hpre hb
    apply congrArg String.mk
    show stripRun .normal (pre ++ ('/' :: ('*' :: (b ++ ('*' :: ('/' :: post)))))) = _
    rw [stripRun_plain pre hpre]
    have h0 : stripRun .normal ('/' :: ('*' :: (b ++ ('*' :: ('/' :: post))))) =
        stripRun .blockComment (b ++ ('*' :: ('/' :: post))) := by
      simp [stripRun, stripStep]
    rw [h0, stripRun_block_comment b hb post]

/-- Witness for C8: the string literal containing
`This // is not a comment` passes through `stripComments` unchanged. -/
theorem stripComments_string_literals_and_comments_witness :
    (∀ c ∈ ("This // is not a comment").data, c ≠ '"' ∧ c ≠ '\\') ∧
    stripComments (String.mk (([] : List Char) ++
        ('"' :: (("This // is not a comment").data ++ ('"' :: []))))) =
      String.mk (([] : List Char) ++
        ('"' :: (("This // is not a comment").data ++ ('"' :: stripRun .normal [])))) :=
  ⟨by decide,
    stripComments_string_literals_and_comments.1 []
      ("This // is not a comment").data [] (by decide) (by decide)⟩

/-! ### Plain segments: text the stripper passes through verbatim -/

/-- The empty segment is plain. -/
theorem plainSeg_nil : PlainSeg [] := fun _ => rfl

/-- Plain segments compose. -/
theorem plainSeg_append {s₁ s₂ : List Char} (h₁ : PlainSeg s₁)
    (h₂ : PlainSeg s₂) : PlainSeg (s₁ ++ s₂) := by
  intro tail
  rw [List.append_assoc, h₁, h₂, ← List.append_assoc]

/-- A segment without quotes or slashes is plain. -/
theorem plainSeg_of_chars {s : List Char}
    (hs : ∀ c ∈ s, c ≠ '"' ∧ c ≠ '/') : PlainSeg s :=
  fun tail => stripRun_plain s hs tail

/-- Whitespace characters are neither quotes nor slashes. -/
theorem wsChar_plain {c : Char} (hc : isWsChar c = true) : c ≠ '"' ∧ c ≠ '/' := by
  simp only [isWsChar, Bool.or_eq_true, decide_eq_true_eq] at hc
  rcases hc with ((h | h) | h) | h <;> subst h <;> exact ⟨by decide, by decide⟩

/-- A run of whitespace is a plain segment. -/
theorem plainSeg_ws {w : List Char} (hw : ∀ c ∈ w, isWsChar c = true) :
    PlainSeg w :=
  plainSeg_of_chars (fun c hc => wsChar_plain (hw c hc))

/-- `skipWs` splits its input into a whitespace run and the remainder. -/
theorem skipWs_split (cs : List Char) :
    ∃ w, cs = w ++ skipWs cs ∧ ∀ c ∈ w, isWsChar c = true := by
  induction cs with
  | nil => exact ⟨[], rfl, by simp⟩
  | cons c cs ih =>
    by_cases hc : isWsChar c
    · obtain ⟨w, hw, hws⟩ := ih
      refine ⟨c :: w, ?_, ?_⟩
      · simp only [skipWs, hc, if_true]
        simpa using hw
      · intro x hx
        rcases List.mem_cons.mp hx with rfl | hx'
        · exact hc
        · exact hws x hx'
    · refine ⟨[], ?_, by simp⟩
      simp [skipWs, hc]

/-- `expectChars` succeeds exactly by splitting off the expected prefix. -/
theorem expectChars_split : ∀ (es cs r : List Char),
    expectChars es cs = some r → cs = es ++ r := by
  intro es
  induction es with
  | nil =>
    intro cs r h
    simpa [expectChars] using h
  | cons e es ih =>
    intro cs r h
    cases cs with
    | nil => simp [expectChars] at h
    | cons c cs' =>
      by_cases hc : c = e
      · subst hc
        simp only [expectChars, if_pos rfl] at h
        simpa using ih cs' r h
      · simp [expectChars, hc] at h

/-- Unfolding the stripper one character at a time. -/
theorem stripRun_cons (m : StripMode) (c : Char) (rest : List Char) :
    stripRun m (c :: rest) = (stripStep m c).2 ++ stripRun (stripStep m c).1 rest := rfl

/-- A successful string-body scan splits the input at the closing quote,
and the stripper passes the body through verbatim in string mode. -/
theorem scanStringBody_split : ∀ (cs : List Char) (esc : Bool)
    (body rest : List Char), scanStringBody esc cs = some (body, rest) →
    cs = body ++ ('"' :: rest) ∧
    ∀ tail, stripRun (stringMode esc) (body ++ ('"' :: tail)) =
      body ++ ('"' :: stripRun .normal tail) := by
  intro cs
  induction cs with
  | nil => intro esc body rest h; simp [scanStringBody] at h
  | cons c cs ih =>
    intro esc body rest h
    cases esc with
    | true =>
      rcases hscan : scanStringBody false cs with _ | ⟨b', r'⟩
      · rw [scanStringBody, hscan] at h
        simp at h
      · rw [scanStringBody, hscan] at h
        simp only [Option.map_some'] at h
        injection h with hpair
        injection hpair with hb hr
        obtain ⟨hsplit, hstrip⟩ := ih false b' r' hscan
        simp only [stringMode] at hstrip
        constructor
        · rw [← hb, ← hr, hsplit]
          simp
        · intro tail
          rw [← hb]
          show c :: stripRun .inString (b' ++ ('"' :: tail)) =
            (c :: b') ++ ('"' :: stripRun .normal tail)
          rw [hstrip tail]
          simp
    | false =>
      by_cases hq : c = '"'
      · subst hq
        rw [scanStringBody] at h
        simp only [if_pos rfl] at h
        injection h with hpair
        injection hpair with hb hr
        constructor
        · rw [← hb, ← hr]
          simp
        · intro tail
          rw [← hb]
          simp [stringMode, stripRun, stripStep]
      · by_cases hbs : c = '\\'
        · subst hbs
          rcases hscan : scanStringBody true cs with _ | ⟨b', r'⟩
          · rw [scanStringBody, hscan] at h
            simp [hq] at h
          · rw [scanStringBody, hscan] at h
            simp only [if_neg hq, if_pos rfl, Option.map_some'] at h
            injection h with hpair
            injection hpair with hb hr
            obtain ⟨hsplit, hstrip⟩ := ih true b' r' hscan
            simp only [stringMode] at hstrip
            constructor
            · rw [← hb, ← hr, hsplit]
              simp
            · intro tail
              rw [← hb]
              show '\\' :: stripRun .inStringEsc (b' ++ ('"' :: tail)) =
                ('\\' :: b') ++ ('"' :: stripRun .normal tail)
              rw [hstrip tail]
              simp
        · rcases hscan : scanStringBody false cs with _ | ⟨b', r'⟩
          · rw [scanStringBody, hscan] at h
            simp [hq, hbs] at h
          · rw [scanStringBody, hscan] at h
            simp only [if_neg hq, if_neg hbs, Option.map_some'] at h
            injection h with hpair
            injection hpair with hb hr
            obtain ⟨hsplit, hstrip⟩ := ih false b' r' hscan
            simp only [stringMode] at hstrip
            constructor
            · rw [← hb, ← hr, hsplit]
              simp
            · intro tail
              rw [← hb]
              have hstep : stripStep .inString c = (.inString, [c]) := by
                simp [stripStep, hq, hbs]
              rw [List.cons_append, stripRun_cons]
              simp only [stringMode]
              rw [hstep]
              show c :: stripRun .inString (b' ++ ('"' :: tail)) =
                (c :: b') ++ ('"' :: stripRun .normal tail)
              rw [hstrip tail]
              simp

/-- A full string literal, quotes included, is a plain segment. -/
theorem plainSeg_string {cs body rest : List Char}
    (h : scanStringBody false cs = some (body, rest)) :
    PlainSeg ('"' :: (body ++ ['"'])) := by
  intro tail
  obtain ⟨_, hstrip⟩ := scanStringBody_split cs false body rest h
  simp only [stringMode] at hstrip
  have hassoc : ((body ++ ['"']) : List Char) ++ tail = body ++ ('"' :: tail) := by simp
  rw [List.cons_append, hassoc]
  show '"' :: stripRun .inString (body ++ ('"' :: tail)) =
    ('"' :: (body ++ ['"'])) ++ stripRun .normal tail
  rw [hstrip tail]
  simp

/-- `takeDigits` splits its input. -/
theorem takeDigits_split : ∀ l : List Char,
    l = (takeDigits l).1 ++ (takeDigits l).2 := by
  intro l
  induction l with
  | nil => rfl
  | cons c cs ih =>
    by_cases hc : isDigitChar c
    · simp only [takeDigits, hc, if_true, List.cons_append]
      exact congrArg (c :: ·) ih
    · simp [takeDigits, hc]

/-- Every character of a digit run is a digit. -/
theorem takeDigits_digits : ∀ (l : List Char) (c : Char),
    c ∈ (takeDigits l).1 → isDigitChar c = true := by
  intro l
  induction l with
  | nil => intro c hc; simp [takeDigits] at hc
  | cons d cs ih =>
    intro c hc
    by_cases hd : isDigitChar d
    · simp only [takeDigits, hd, if_true] at hc
      rcases List.mem_cons.mp hc with rfl | hc'
      · exact hd
      · exact ih c hc'
    · simp [takeDigits, hd] at hc

/-- Digits are neither quotes nor slashes. -/
theorem digit_plain {c : Char} (hc : isDigitChar c = true) :
    c ≠ '"' ∧ c ≠ '/' := by
  simp only [isDigitChar, Bool.and_eq_true, decide_eq_true_eq] at hc
  constructor
  · rintro rfl
    exact absurd hc.1 (by decide)
  · rintro rfl
    exact absurd hc.1 (by decide)

/-- Characters allowed in a JSON number lexeme. -/
theorem numberChar_plain {c : Char}
    (hc : isDigitChar c = true ∨ c = '-' ∨ c = '+' ∨ c = '.' ∨ c = 'e' ∨ c = 'E') :
    c ≠ '"' ∧ c ≠ '/' := by
  rcases hc with h | h | h | h | h | h
  · exact digit_plain h
  all_goals subst h
  all_goals exact ⟨by decide, by decide⟩

/-- `splitMinus` splits its input, and the sign characters are plain. -/
theorem splitMinus_split (cs : List Char) :
    cs = (splitMinus cs).1 ++ (splitMinus cs).2 ∧
    ∀ c ∈ (splitMinus cs).1, c ≠ '"' ∧ c ≠ '/' := by
  cases cs with
  | nil => exact ⟨rfl, by simp [splitMinus]⟩
  | cons c r =>
    by_cases hc : c = '-'
    · subst hc
      refine ⟨by simp [splitMinus], ?_⟩
      intro x hx
      simp only [splitMinus, if_pos rfl] at hx
      rcases List.mem_singleton.mp hx with rfl
      exact ⟨by decide, by decide⟩
    · exact ⟨by simp [splitMinus, hc], by simp [splitMinus, hc]⟩

/-- `splitIntPart` splits its input, and the integer part is all digits. -/
theorem splitIntPart_split {cs ip rest : List Char}
    (h : splitIntPart cs = some (ip, rest)) :
    cs = ip ++ rest ∧ ∀ c ∈ ip, c ≠ '"' ∧ c ≠ '/' := by
  cases cs with
  | nil => simp [splitIntPart] at h
  | cons c r =>
    by_cases hc0 : c = '0'
    · subst hc0
      rw [splitIntPart] at h
      simp only [if_pos rfl] at h
      injection h with hpair
      injection hpair with h1 h2
      subst h2
      constructor
      · rw [← h1]
        simp
      · intro x hx
        rw [← h1] at hx
        rcases List.mem_singleton.mp hx with rfl
        exact ⟨by decide, by decide⟩
    · by_cases hcd : isDigitChar c
      · rw [splitIntPart] at h
        simp only [if_neg hc0, if_pos hcd] at h
        injection h with hpair
        injection hpair with h1 h2
        subst h2
        constructor
        · rw [← h1]
          have := takeDigits_split r
          simp only [List.cons_append]
          exact congrArg (c :: ·) this
        · intro x hx
          rw [← h1] at hx
          rcases List.mem_cons.mp hx with rfl | hx'
          · exact digit_plain hcd
          · exact digit_plain (takeDigits_digits r x hx')
      · simp [splitIntPart, hc0, hcd] at h

/-- `splitFracPart` splits its input, and the fraction part is plain. -/
theorem splitFracPart_split {cs fp rest : List Char}
    (h : splitFracPart cs = some (fp, rest)) :
    cs = fp ++ rest ∧ ∀ c ∈ fp, c ≠ '"' ∧ c ≠ '/' := by
  cases cs with
  | nil =>
    rw [splitFracPart] at h
    injection h with hpair
    injection hpair with h1 h2
    subst h2
    exact ⟨by simp [← h1], by simp [← h1]⟩
  | cons c r =>
    by_cases hcd : c = '.'
    · subst hcd
      rw [splitFracPart] at h
      simp only [if_pos rfl] at h
      rcases htd : takeDigits r with ⟨ds, r2⟩
      rw [htd] at h
      cases ds with
      | nil => simp at h
      | cons d ds' =>
        simp only at h
        injection h with hpair
        injection hpair with h1 h2
        subst h2
        constructor
        · rw [← h1]
          have := takeDigits_split r
          rw [htd] at this
          simp only [List.cons_append]
          exact congrArg ('.' :: ·) this
        · intro x hx
          rw [← h1] at hx
          rcases List.mem_cons.mp hx with rfl | hx'
          · exact ⟨by decide, by decide⟩
          · refine digit_plain (takeDigits_digits r x ?_)
            rw [htd]
            exact hx'
    · rw [splitFracPart] at h
      simp only [if_neg hcd] at h
      injection h with hpair
      injection hpair with h1 h2
      subst h2
      exact ⟨by simp [← h1], by simp [← h1]⟩

/-- `splitExpSign` splits its input, and the sign characters are plain. -/
theorem splitExpSign_split (cs : List Char) :
    cs = (splitExpSign cs).1 ++ (splitExpSign cs).2 ∧
    ∀ c ∈ (splitExpSign cs).1, c ≠ '"' ∧ c ≠ '/' := by
  cases cs with
  | nil => exact ⟨rfl, by simp [splitExpSign]⟩
  | cons c r =>
    by_cases hc : c = '+' ∨ c = '-'
    · refine ⟨by simp [splitExpSign, hc], ?_⟩
      intro x hx
      simp only [splitExpSign, if_pos hc] at hx
      rcases List.mem_singleton.mp hx with rfl
      rcases hc with rfl | rfl
      · exact ⟨by decide, by decide⟩
      · exact ⟨by decide, by decide⟩
    · exact ⟨by simp [splitExpSign, hc], by simp [splitExpSign, hc]⟩

/-- `splitExpPart` splits its input, and the exponent part is plain. -/
theorem splitExpPart_split {cs ep rest : List Char}
    (h : splitExpPart cs = some (ep, rest)) :
    cs = ep ++ rest ∧ ∀ c ∈ ep, c ≠ '"' ∧ c ≠ '/' := by
  cases cs with
  | nil =>
    rw [splitExpPart] at h
    injection h with hpair
    injection hpair with h1 h2
    subst h2
    exact ⟨by simp [← h1], by simp [← h1]⟩
  | cons c r =>
    by_cases hce : c = 'e' ∨ c = 'E'
    · obtain ⟨hsign, hsignplain⟩ := splitExpSign_split r
      rw [splitExpPart] at h
      simp only [if_pos hce] at h
      rcases htd : takeDigits (splitExpSign r).2 with ⟨ds, r3⟩
      rw [htd] at h
      cases ds with
      | nil => simp at h
      | cons d ds' =>
        simp only at h
        injection h with hpair
        injection hpair with h1 h2
        subst h2
        constructor
        · rw [← h1]
          have hds := takeDigits_split (splitExpSign r).2
          rw [htd] at hds
          have hds' : (splitExpSign r).2 = d :: (ds' ++ r3) := by simpa using hds
          simp only [List.cons_append, List.append_assoc]
          rw [← hds', ← hsign]
        · intro x hx
          rw [← h1] at hx
          rcases List.mem_cons.mp hx with rfl | hx'
          · rcases hce with rfl | rfl
            · exact ⟨by decide, by decide⟩
            · exact ⟨by decide, by decide⟩
          · rcases List.mem_append.mp hx' with hx2 | hx2
            · exact hsignplain x hx2
            · refine digit_plain (takeDigits_digits (splitExpSign r).2 x ?_)
              rw [htd]
              exact hx2
    · rw [splitExpPart] at h
      simp only [if_neg hce] at h
      injection h with hpair
      injection hpair with h1 h2
      subst h2
      exact ⟨by simp [← h1], by simp [← h1]⟩

/-- A successful `parseNumber` splits the input, and the lexeme contains
only number characters (so neither quotes nor slashes). -/
theorem parseNumber_split {cs lex rest : List Char}
    (h : parseNumber cs = some (lex, rest)) :
    cs = lex ++ rest ∧ ∀ c ∈ lex, c ≠ '"' ∧ c ≠ '/' := by
  obtain ⟨hm, hmplain⟩ := splitMinus_split cs
  rw [parseNumber] at h
  split at h
  · exact absurd h (by simp)
  · rename_i ip afterInt hip
    split at h
    · exact absurd h (by simp)
    · rename_i fp afterFrac hfp
      split at h
      · exact absurd h (by simp)
      · rename_i ep afterExp hep
        injection h with hpair
        injection hpair with h1 h2
        subst h2
        obtain ⟨hint, hintplain⟩ := splitIntPart_split hip
        obtain ⟨hfrac, hfracplain⟩ := splitFracPart_split hfp
        obtain ⟨hexp, hexpplain⟩ := splitExpPart_split hep
        constructor
        · calc cs = (splitMinus cs).1 ++ (splitMinus cs).2 := hm
            _ = (splitMinus cs).1 ++ (ip ++ (fp ++ (ep ++ afterExp))) := by
                  rw [hint, hfrac, hexp]
            _ = ((splitMinus cs).1 ++ (ip ++ (fp ++ ep))) ++ afterExp := by
                  simp [List.append_assoc]
            _ = lex ++ afterExp := by rw [h1]
        · intro x hx
          rw [← h1] at hx
          rcases List.mem_append.mp hx with hx1 | hx1
          · exact hmplain x hx1
          · rcases List.mem_append.mp hx1 with hx2 | hx2
            · exact hintplain x hx2
            · rcases List.mem_append.mp hx2 with hx3 | hx3
              · exact hfracplain x hx3
              · exact hexpplain x hx3

/-- Every successful parse consumes a plain segment: the consumed prefix of
the input is passed through verbatim by the comment stripper.  (Valid JSON
contains no comment openers outside string literals, and string literals
are preserved.) -/
theorem parse_segments : ∀ fuel : Nat,
    (∀ cs v rest, parseValue fuel cs = some (v, rest) →
      ∃ seg, cs = seg ++ rest ∧ PlainSeg seg) ∧
    (∀ cs es rest, parseElems fuel cs = some (es, rest) →
      ∃ seg, cs = seg ++ rest ∧ PlainSeg seg) ∧
    (∀ cs fs rest, parseFields fuel cs = some (fs, rest) →
      ∃ seg, cs = seg ++ rest ∧ PlainSeg seg) := by
  intro fuel
  induction fuel with
  | zero =>
    refine ⟨?_, ?_, ?_⟩ <;> intro cs x rest h <;>
      simp [parseValue, parseElems, parseFields] at h
  | succ fuel ih =>
    obtain ⟨ihV, ihE, ihF⟩ := ih
    refine ⟨?_, ?_, ?_⟩
    · intro cs v rest h
      obtain ⟨w, hw, hws⟩ := skipWs_split cs
      have hwseg : PlainSeg w := plainSeg_ws hws
      rw [parseValue] at h
      split at h
      · rename_i r hlit
        injection h with hpair
        injection hpair with hv hr
        have hsk := expectChars_split _ _ _ hlit
        refine ⟨w ++ ['n', 'u', 'l', 'l'], ?_,
          plainSeg_append hwseg (plainSeg_of_chars (by decide))⟩
        rw [hw, hsk, hr]
        simp
      · split at h
        · rename_i r hlit
          injection h with hpair
          injection hpair with hv hr
          have hsk := expectChars_split _ _ _ hlit
          refine ⟨w ++ ['t', 'r', 'u', 'e'], ?_,
            plainSeg_append hwseg (plainSeg_of_chars (by decide))⟩
          rw [hw, hsk, hr]
          simp
        · split at h
          · rename_i r hlit
            injection h with hpair
            injection hpair with hv hr
            have hsk := expectChars_split _ _ _ hlit
            refine ⟨w ++ ['f', 'a', 'l', 's', 'e'], ?_,
              plainSeg_append hwseg (plainSeg_of_chars (by decide))⟩
            rw [hw, hsk, hr]
            simp
          · split at h
            · rename_i r hquote
              split at h
              · rename_i sb hscan
                obtain ⟨body, r2⟩ := sb
                injection h with hpair
                injection hpair with hv hr
                have hsk := expectChars_split _ _ _ hquote
                obtain ⟨hr1, _⟩ := scanStringBody_split r false body r2 hscan
                refine ⟨w ++ ('"' :: (body ++ ['"'])), ?_,
                  plainSeg_append hwseg (plainSeg_string hscan)⟩
                simp only at hr
                rw [hw, hsk, hr1, hr]
                simp
              · exact Option.noConfusion h
            · split at h
              · rename_i r hopen
                split at h
                · rename_i r2 hclose
                  injection h with hpair
                  injection hpair with hv hr
                  have hsk := expectChars_split _ _ _ hopen
                  have hsk2 := expectChars_split _ _ _ hclose
                  obtain ⟨w2, hw2, hws2⟩ := skipWs_split r
                  refine ⟨w ++ (['['] ++ (w2 ++ [']'])), ?_,
                    plainSeg_append hwseg (plainSeg_append (plainSeg_of_chars (by decide))
                      (plainSeg_append (plainSeg_ws hws2) (plainSeg_of_chars (by decide))))⟩
                  rw [hw, hsk, hw2, hsk2, hr]
                  simp
                · split at h
                  · rename_i es0 r3 helems
                    injection h with hpair
                    injection hpair with hv hr
                    have hsk := expectChars_split _ _ _ hopen
                    obtain ⟨w2, hw2, hws2⟩ := skipWs_split r
                    obtain ⟨sege, hre, hsege⟩ := ihE (skipWs r) es0 r3 helems
                    refine ⟨w ++ (['['] ++ (w2 ++ sege)), ?_,
                      plainSeg_append hwseg (plainSeg_append (plainSeg_of_chars (by decide))
                        (plainSeg_append (plainSeg_ws hws2) hsege))⟩
                    rw [hw, hsk, hw2, hre, hr]
                    simp
                  · exact Option.noConfusion h
              · split at h
                · rename_i r hopen
                  split at h
                  · rename_i r2 hclose
                    injection h with hpair
                    injection hpair with hv hr
                    have hsk := expectChars_split _ _ _ hopen
                    have hsk2 := expectChars_split _ _ _ hclose
                    obtain ⟨w2, hw2, hws2⟩ := skipWs_split r
                    refine ⟨w ++ ([lbraceChar] ++ (w2 ++ [rbraceChar])), ?_,
                      plainSeg_append hwseg (plainSeg_append (plainSeg_of_chars (by decide))
                        (plainSeg_append (plainSeg_ws hws2) (plainSeg_of_chars (by decide))))⟩
                    rw [hw, hsk, hw2, hsk2, hr]
                    simp
                  · split at h
                    · rename_i fs0 r3 hfields
                      injection h with hpair
                      injection hpair with hv hr
                      have hsk := expectChars_split _ _ _ hopen
                      obtain ⟨w2, hw2, hws2⟩ := skipWs_split r
                      obtain ⟨segf, hrf, hsegf⟩ := ihF (skipWs r) fs0 r3 hfields
                      refine ⟨w ++ ([lbraceChar] ++ (w2 ++ segf)), ?_,
                        plainSeg_append hwseg (plainSeg_append (plainSeg_of_chars (by decide))
                          (plainSeg_append (plainSeg_ws hws2) hsegf))⟩
                      rw [hw, hsk, hw2, hrf, hr]
                      simp
                    · exact Option.noConfusion h
                · split at h
                  · rename_i pn hnum
                    obtain ⟨lex, r2⟩ := pn
                    injection h with hpair
                    injection hpair with hv hr
                    obtain ⟨hsk, hplain⟩ := parseNumber_split hnum
                    refine ⟨w ++ lex, ?_, plainSeg_append hwseg (plainSeg_of_chars hplain)⟩
                    simp only at hr
                    rw [hw, hsk, hr]
                    simp
                  · exact Option.noConfusion h
    · intro cs es rest h
      rw [parseElems] at h
      split at h
      · exact Option.noConfusion h
      · rename_i v0 rest0 hval
        obtain ⟨segv, hcs, hsegv⟩ := ihV cs v0 rest0 hval
        obtain ⟨w, hw, hws⟩ := skipWs_split rest0
        split at h
        · rename_i r2 hcomma
          split at h
          · rename_i es0 r3 helems
            injection h with hpair
            injection hpair with hv hr
            have hsk := expectChars_split _ _ _ hcomma
            obtain ⟨sege, hre, hsege⟩ := ihE r2 es0 r3 helems
            refine ⟨segv ++ (w ++ ([','] ++ sege)), ?_,
              plainSeg_append hsegv (plainSeg_append (plainSeg_ws hws)
                (plainSeg_append (plainSeg_of_chars (by decide)) hsege))⟩
            rw [hcs, hw, hsk, hre, hr]
            simp
          · exact Option.noConfusion h
        · split at h
          · rename_i r2 hclose
            injection h with hpair
            injection hpair with hv hr
            have hsk := expectChars_split _ _ _ hclose
            refine ⟨segv ++ (w ++ [']']), ?_,
              plainSeg_append hsegv (plainSeg_append (plainSeg_ws hws)
                (plainSeg_of_chars (by decide)))⟩
            rw [hcs, hw, hsk, hr]
            simp
          · exact Option.noConfusion h
    · intro cs fs rest h
      rw [parseFields] at h
      split at h
      · exact Option.noConfusion h
      · rename_i r hquote
        split at h
        · exact Option.noConfusion h
        · rename_i key rest1 hscan
          obtain ⟨w, hw, hws⟩ := skipWs_split cs
          have hsk := expectChars_split _ _ _ hquote
          obtain ⟨hr1, _⟩ := scanStringBody_split r false key rest1 hscan
          obtain ⟨w2, hw2, hws2⟩ := skipWs_split rest1
          split at h
          · exact Option.noConfusion h
          · rename_i rest2 hcolon
            have hskc := expectChars_split _ _ _ hcolon
            split at h
            · exact Option.noConfusion h
            · rename_i v0 rest3 hval
              obtain ⟨segv, hcv, hsegv⟩ := ihV rest2 v0 rest3 hval
              obtain ⟨w3, hw3, hws3⟩ := skipWs_split rest3
              split at h
              · rename_i rest4 hcomma
                split at h
                · rename_i fs0 rest5 hfields
                  injection h with hpair
                  injection hpair with hv hr
                  have hskm := expectChars_split _ _ _ hcomma
                  obtain ⟨segf, hrf, hsegf⟩ := ihF rest4 fs0 rest5 hfields
                  refine ⟨w ++ (('"' :: (key ++ ['"'])) ++ (w2 ++ ([':'] ++ (segv ++
                      (w3 ++ ([','] ++ segf)))))), ?_,
                    plainSeg_append (plainSeg_ws hws) (plainSeg_append (plainSeg_string hscan)
                      (plainSeg_append (plainSeg_ws hws2) (plainSeg_append
                        (plainSeg_of_chars (by decide)) (plainSeg_append hsegv
                          (plainSeg_append (plainSeg_ws hws3) (plainSeg_append
                            (plainSeg_of_chars (by decide)) hsegf))))))⟩
                  rw [hw, hsk, hr1, hw2, hskc, hcv, hw3, hskm, hrf, hr]
                  simp
                · exact Option.noConfusion h
              · split at h
                · rename_i rest4 hclose
                  injection h with hpair
                  injection hpair with hv hr
                  have hskm := expectChars_split _ _ _ hclose
                  refine ⟨w ++ (('"' :: (key ++ ['"'])) ++ (w2 ++ ([':'] ++ (segv ++
                      (w3 ++ [rbraceChar]))))), ?_,
                    plainSeg_append (plainSeg_ws hws) (plainSeg_append (plainSeg_string hscan)
                      (plainSeg_append (plainSeg_ws hws2) (plainSeg_append
                        (plainSeg_of_chars (by decide)) (plainSeg_append hsegv
                          (plainSeg_append (plainSeg_ws hws3)
                            (plainSeg_of_chars (by decide)))))))⟩
                  rw [hw, hsk, hr1, hw2, hskc, hcv, hw3, hskm, hr]
                  simp
                · exact Option.noConfusion h

/-- A JSON document accepted by `parseJSON` is a plain segment: the comment
stripper passes it through verbatim. -/
theorem parseJSON_plainSeg {j : List Char} {v : Json}
    (h : parseJSON (String.mk j) = some v) : PlainSeg j := by
  simp only [parseJSON] at h
  split at h
  · rename_i v0 rest hval
    split at h
    · rename_i hrest
      obtain ⟨w, hw, hws⟩ := skipWs_split j
      obtain ⟨seg, hsk, hseg⟩ :=
        (parse_segments ((skipWs j).length + 1)).1 (skipWs j) v0 rest hval
      obtain ⟨w2, hw2, hws2⟩ := skipWs_split rest
      rw [hrest] at hw2
      have hrest2 : rest = w2 := by simpa using hw2
      have hj : j = w ++ (seg ++ w2) := by
        rw [hw, hsk, hrest2]
      rw [hj]
      exact plainSeg_append (plainSeg_ws hws)
        (plainSeg_append hseg (plainSeg_ws hws2))
    · exact Option.noConfusion h
  · exact Option.noConfusion h

/-- A plain segment strips to itself. -/
theorem plainSeg_strip_id {j : List Char} (h : PlainSeg j) :
    stripRun .normal j = j := by
  have h0 := h []
  have he : stripRun .normal ([] : List Char) = [] := rfl
  rw [he] at h0
  simpa using h0

/-! ### Lemmas about JSON parsing after stripping -/

/-- A leading whitespace character does not affect JSON parsing. -/
theorem parseJSON_cons_ws (c : Char) (hc : isWsChar c = true) (l : List Char) :
    parseJSON (String.mk (c :: l)) = parseJSON (String.mk l) := by
  have hskip : skipWs (c :: l) = skipWs l := by
    rw [skipWs]
    simp [hc]
  show (match parseValue ((skipWs (c :: l)).length + 1) (skipWs (c :: l)) with
    | some (v, rest) => if skipWs rest = [] then some v else none
    | none => none) = _
  rw [hskip]
  rfl

/-- Stripping collapses any interleaving of comments and a JSON text to
the JSON text itself. -/
theorem interleaved_strip {x j : List Char} (h : Interleaved x j) :
    stripRun .normal x = j := by
  induction h with
  | nil => rfl
  | piece p x j hp hI ih => rw [hp x, ih]
  | block b x j hb hI ih =>
    show stripRun .blockComment (b ++ ('*' :: ('/' :: x))) = j
    rw [stripRun_block_comment b hb, ih]
  | line a x j ha hI ih =>
    show stripRun .lineComment (a ++ ('\n' :: x)) = '\n' :: j
    rw [stripRun_line_comment a ha, ih]

/-- Claim C9: for every JSONC input consisting only of comments and valid
JSON -- any `x` interleaving a valid JSON text `j` with comments at any
positions outside string literals (`Interleaved x j`) -- JSON parsing of
the stripped output succeeds, with the same value.  Conversely a
comment-free valid JSON text is itself such an input and passes through
`stripComments` verbatim.  And prettification is the identity on the
degenerate inputs: empty input, the one-line empty object and the
one-line empty array. -/
theorem jsonc_strip_parses_and_prettify_degenerate :
    (∀ x j : List Char, ∀ v : Json,
      Interleaved x j →
      parseJSON (String.mk j) = some v →
      parseJSON (stripComments (String.mk x)) = some v) ∧
    (∀ j : List Char, ∀ v : Json,
      parseJSON (String.mk j) = some v →
      Interleaved j j ∧ stripComments (String.mk j) = String.mk j) ∧
    prettifyJSONC (String.mk []) = String.mk [] ∧
    prettifyJSONC (String.mk [lbraceChar, rbraceChar]) =
      String.mk [lbraceChar, rbraceChar] ∧
    prettifyJSONC "[]" = "[]" := by
  refine ⟨?_, ?_, rfl, by decide, by decide⟩
  · intro x j v hI hparse
    have hstrip : stripComments (String.mk x) = String.mk j :=
      congrArg String.mk (interleaved_strip hI)
    rw [hstrip, hparse]
  · intro j v hparse
    have hplain : PlainSeg j := parseJSON_plainSeg hparse
    constructor
    · have := Interleaved.piece j [] [] hplain Interleaved.nil
      simpa using this
    · exact congrArg String.mk (plainSeg_strip_id hplain)

/-- Witness for C9: a block comment between two array elements together
with a trailing line comment, and a lone block comment in front of an
empty object, both strip to texts `parseJSON` accepts. -/
theorem jsonc_strip_parses_and_prettify_degenerate_witness :
    Interleaved (("[1, /*c*/ 2] // done\n").data) (("[1,  2] \n").data) ∧
    parseJSON (String.mk (("[1,  2] \n").data)) =
      some (Json.arr [Json.num ['1'], Json.num ['2']]) ∧
    parseJSON (stripComments (String.mk (("[1, /*c*/ 2] // done\n").data))) =
      some (Json.arr [Json.num ['1'], Json.num ['2']]) ∧
    parseJSON (stripComments (String.mk (("/*c*/" ++
        String.mk [lbraceChar, rbraceChar]).data))) = some (Json.obj []) := by
  have hI : Interleaved (("[1, /*c*/ 2] // done\n").data) (("[1,  2] \n").data) := by
    have h1 : ("[1, /*c*/ 2] // done\n").data =
        ("[1, ").data ++ ('/' :: ('*' :: (['c'] ++ ('*' :: ('/' ::
          ((" 2] ").data ++ ('/' :: ('/' :: ((" done").data ++
            ('\n' :: ([] : List Char))))))))))) := by decide
    have h2 : ("[1,  2] \n").data =
        ("[1, ").data ++ ((" 2] ").data ++ ('\n' :: ([] : List Char))) := by decide
    rw [h1, h2]
    exact .piece _ _ _ (plainSeg_of_chars (by decide))
      (.block _ _ _ (by decide)
        (.piece _ _ _ (plainSeg_of_chars (by decide))
          (.line _ _ _ (by decide) .nil)))
  have hI2 : Interleaved (("/*c*/" ++ String.mk [lbraceChar, rbraceChar]).data)
      ((String.mk [lbraceChar, rbraceChar]).data) := by
    have h1 : ("/*c*/" ++ String.mk [lbraceChar, rbraceChar]).data =
        '/' :: ('*' :: (['c'] ++ ('*' :: ('/' ::
          ([lbraceChar, rbraceChar] ++ ([] : List Char)))))) := by decide
    have h2 : (String.mk [lbraceChar, rbraceChar]).data =
        [lbraceChar, rbraceChar] ++ ([] : List Char) := by decide
    rw [h1, h2]
    exact .block _ _ _ (by decide)
      (.piece _ _ _ (plainSeg_of_chars (by decide)) .nil)
  refine ⟨hI, rfl, ?_, ?_⟩
  · exact jsonc_strip_parses_and_prettify_degenerate.1 _ _ _ hI rfl
  · exact jsonc_strip_parses_and_prettify_degenerate.1 _ _ _ hI2 rfl

end VoidenSDK
